import Mathlib

/-!
Verification model of the `icli` interactive-CLI package (`icli.go`).

The shell embeds the command dispatch / option-resolution engine and the
REPL control loop of the Go source.  Go maps become association lists,
the `liner` and `clif` collaborators are abstracted behind explicit
parameters (the spec declares them external), and Go runtime panics
(out-of-range slice indexing) are modelled as `Option.none`.
-/

namespace ICli

/-- Single-quote character, written numerically to keep the source free of
quote-literal noise. -/
def sq : Char := Char.ofNat 39

/-- Double-quote character. -/
def dq : Char := Char.ofNat 34

/-- Go's regexp whitespace class `\s = [\t\n\f\r ]`, used by the token
pattern `\S+` in `Start` (icli.go line 246). -/
def goSpace (c : Char) : Bool :=
  c == ' ' || c == '\t' || c == '\n' || c == '\r' || c == Char.ofNat 12

/-- Index of the last occurrence of `q` within the longest newline-free
prefix of the list.  This is where the greedy `.+` of Go's pattern
`'.+'` / `".+"` backtracks to: `.` cannot cross a newline, and greedy
matching ends at the last reachable closing quote. -/
def lastQuote (q : Char) : List Char → Option Nat
  | [] => none
  | c :: rest =>
    if c == '\n' then none
    else
      match lastQuote q rest with
      | some j => some (j + 1)
      | none => if c == q then some 0 else none

/-- Result of attempting the alternative `q.+q` immediately after an
opening quote: the closing-quote index must be at least 1 because `.+`
must consume at least one character. -/
def matchQuote (q : Char) (rest : List Char) : Option Nat :=
  match lastQuote q rest with
  | some j => if 1 ≤ j then some j else none
  | none => none

/-- `regexp.FindAllString` for the pattern `'.+'|".+"|\S+` with Go's
leftmost-first (Perl) alternation semantics: at each match position the
single-quoted alternative is tried first, then the double-quoted one,
then a maximal run of non-whitespace.  `fuel` bounds the recursion; each
step consumes at least one character, so `fuel = length` suffices. -/
def findAll : Nat → List Char → List (List Char)
  | 0, _ => []
  | _ + 1, [] => []
  | fuel + 1, c :: rest =>
    if goSpace c then findAll fuel rest
    else
      match
        (if c == sq then matchQuote sq rest
         else if c == dq then matchQuote dq rest
         else none) with
      | some j => (c :: rest.take (j + 1)) :: findAll fuel (rest.drop (j + 1))
      | none =>
        (c :: rest.takeWhile (fun d => !goSpace d)) ::
          findAll fuel (rest.dropWhile (fun d => !goSpace d))

/-- Tokenizer on character lists. -/
def tokenizeChars (l : List Char) : List (List Char) :=
  findAll l.length l

/-- The tokenizer of `Start` (icli.go lines 246-247): split a raw line
with `'.+'|".+"|\S+`. -/
def tokenize (s : String) : List String :=
  (tokenizeChars s.data).map (fun t => String.mk t)

/-!
## Data model

`clif` (the command-definition / argument-parsing framework) is an
external collaborator, so its option objects are modelled by the
interface the core uses: a name and the parsed `Values` slice.  As in
clif, an option counts as provided exactly when its `Values` slice is
non-empty, its string form is its first value, and its boolean form
holds when that string is the literal `true`.
-/

/-- Model of a `clif.Option` / `clif.Argument`: declared name plus the
transient `Values` slice filled by parsing (`nil` slice = `[]`). -/
structure ClifOpt where
  name : String
  values : List String
  deriving DecidableEq, Repr

/-- Model of clif's `Option.Provided()`: values were parsed this
invocation (a supplied-but-empty value is `[""]`, still provided). -/
def ClifOpt.provided (o : ClifOpt) : Bool :=
  !o.values.isEmpty

/-- Model of clif's `Option.String()`: the parsed value. -/
def ClifOpt.str (o : ClifOpt) : String :=
  o.values.headD ""

/-- Model of clif's `Option.Bool()`. -/
def ClifOpt.toBool (o : ClifOpt) : Bool :=
  o.str == "true"

/-- Model of a `clif.Command`: identity, declared options and positional
arguments (both carry transient parsed values). -/
structure Command where
  name : String
  options : List ClifOpt
  arguments : List ClifOpt
  deriving DecidableEq, Repr

/-- Model of clif's `Command.Option(name)`: look an option up by
declared name. -/
def Command.option (c : Command) (n : String) : Option ClifOpt :=
  c.options.find? (fun o => o.name == n)

/-- Shell state (`ICli` struct, icli.go lines 46-54).  The Go maps
`Commands`, `optionList` and `optionSet` become association lists /
name lists; `Commands` keeps its map key separate from the stored
object, as a Go map does. -/
structure Shell where
  commands : List (String × Command)
  defaultCommand : String
  defaultOptions : List ClifOpt
  optionList : List String
  optionSet : List (String × String)
  deriving DecidableEq, Repr

/-- Go map read `m[k]`. -/
def lookupStore (s : List (String × String)) (k : String) : Option String :=
  (s.find? (fun p => p.1 == k)).map (fun p => p.2)

/-- Go map write `m[k] = v` (overwrite if present, insert otherwise). -/
def storeInsert (k v : String) : List (String × String) → List (String × String)
  | [] => [(k, v)]
  | (k', v') :: rest =>
    if k' == k then (k, v) :: rest else (k', v') :: storeInsert k v rest

/-- Go `delete(m, k)`. -/
def storeDelete (k : String) (s : List (String × String)) : List (String × String) :=
  s.filter (fun p => p.1 != k)

/-- Go map read `Commands[name]`. -/
def lookupCmd (cmds : List (String × Command)) (n : String) : Option Command :=
  (cmds.find? (fun p => p.1 == n)).map (fun p => p.2)

/-- Replace the object stored under a map key. -/
def replaceCmd (cmds : List (String × Command)) (n : String) (c : Command) :
    List (String × Command) :=
  cmds.map (fun p => if p.1 == n then (n, c) else p)

/-!
## Global option store operations (icli.go lines 87-129)
-/

/-- `SetGlobalOption` (icli.go lines 89-96).  Returns the updated shell
and the error value; on an unknown option the shell is returned
untouched together with the error message. -/
def setGlobalOption (i : Shell) (key value : String) : Shell × Option String :=
  if i.optionList.contains key then
    ({ i with optionSet := storeInsert key value i.optionSet }, none)
  else
    (i, some ("unknown option " ++ key))

/-- `UnsetGlobalOption` (icli.go lines 100-103): deletes the key and
always returns `nil`. -/
def unsetGlobalOption (i : Shell) (key : String) : Shell × Option String :=
  ({ i with optionSet := storeDelete key i.optionSet }, none)

/-- `GetGlobalOptions` (icli.go lines 106-112).  Go iterates the map in
unspecified order; the model folds the association list in its own
order (the spec only demands a deterministic-enough listing). -/
def getGlobalOptions (i : Shell) : String :=
  i.optionSet.foldl (fun acc p => acc ++ p.1 ++ "=" ++ p.2 ++ "\n") ""

/-- `GetOption` (icli.go lines 116-129), with nil receiver and nil
command modelled as `none`. -/
def getOption : Option Shell → Option Command → String → String
  | none, _, _ => ""
  | some _, none, _ => ""
  | some i, some cmd, n =>
    if n == "" then ""
    else
      match cmd.option n with
      | some opt =>
        if opt.provided then opt.str
        else
          match lookupStore i.optionSet n with
          | some g => g
          | none => ""
      | none =>
        match lookupStore i.optionSet n with
        | some g => g
        | none => ""

/-- Modelled from the spec words of section 4.3 `Resolve(command, name)`:
tier (1) the value explicitly provided on this command line, else tier
(2) the value in the Global Option Store, else tier (3) the empty
string.  Written independently of `getOption` for the refinement
proof. -/
def resolveSpec (i : Shell) (cmd : Command) (n : String) : String :=
  match (cmd.option n).bind (fun o => if o.provided then some o.str else none) with
  | some v => v
  | none =>
    match lookupStore i.optionSet n with
    | some v => v
    | none => ""

/-- `updateOptionList` (icli.go lines 312-324): the Option Registry is
rebuilt as the union of option names across all registered commands
plus the default options. -/
def registryNames (i : Shell) : List String :=
  (i.commands.flatMap (fun p => p.2.options.map (fun o => o.name))) ++
    i.defaultOptions.map (fun o => o.name)

/-- The shell after `updateOptionList` refreshed `optionList`. -/
def updateOptionList (i : Shell) : Shell :=
  { i with optionList := registryNames i }

/-!
## Dispatcher (`RunCommand`, icli.go lines 144-207)

Go runtime panics (out-of-range slice indexing) are modelled as
`Option.none`; the external clif parser, the handler caller and the
help renderer are explicit parameters, universally quantified in the
theorems.
-/

/-- Observable side effects of one dispatch. -/
inductive Ev where
  | printed (s : String)
  | handlerCalled (name : String)
  deriving DecidableEq, Repr

/-- Classification of the `error` value `RunCommand` returns:
`nil` / `ErrQuit` / `ErrUnknown` / a parse error. -/
inductive Outcome where
  | ok
  | quit
  | unknown
  | parseErr (msg : String)
  deriving DecidableEq, Repr

/-- External collaborators of the dispatcher: clif's `Command.Parse`
(returns the command object with values filled plus an optional error),
`Cli.Call` (call error from reflection, and the handler's returned
error value), and `clif.DescribeCommand`. -/
structure Ext where
  parse : Command → List String → Command × Option String
  call : Shell → Command → Option String × Option String
  describe : Command → String

/-- The deferred reset in `RunCommand` (icli.go lines 169-179): all
option and argument `Values` of the dispatched command object are set
back to `nil`. -/
def clearCommand (c : Command) : Command :=
  { c with
    options := c.options.map (fun o => { o with values := [] }),
    arguments := c.arguments.map (fun a => { a with values := [] }) }

/-- Decidable check that a command object carries no parsed values. -/
def clearedB (c : Command) : Bool :=
  c.options.all (fun o => o.values.isEmpty) &&
    c.arguments.all (fun a => a.values.isEmpty)

/-- `setCommand` (icli.go lines 289-299): with other than two arguments
it prints the global-option dump, otherwise it sets `args[0]` to
`args[1]`, printing any error. -/
def setCommand (i : Shell) (args : List String) : Shell × List Ev :=
  match args with
  | [k, v] =>
    match setGlobalOption i k v with
    | (i', none) => (i', [])
    | (i', some e) => (i', [Ev.printed ("error: " ++ e)])
  | _ => (i, [Ev.printed (getGlobalOptions i)])

/-- `unsetCommand` (icli.go lines 302-307), modelled exactly as written:
when `args.length ≠ 2` it prints a usage message and then — the `if`
body does not return — still evaluates `args[1]`, which panics
(`none`) whenever fewer than two arguments are present; with two or
more arguments it unsets `args[1]`, the second argument. -/
def unsetCommand (i : Shell) (args : List String) : Option (Shell × List Ev) :=
  let evs := if args.length ≠ 2 then [Ev.printed "error: need one option to unset"] else []
  match args.get? 1 with
  | some key => some ((unsetGlobalOption i key).1, evs)
  | none => none

/-- The found/not-found command branch of `RunCommand` (icli.go lines
168-206).  `origArgs` is the full argument list, used by the
unknown-command message (`args[0]`, a panic when empty). -/
def dispatchCmd (ext : Ext) (i : Shell) (n : String) (cargs : List String)
    (origArgs : List String) : Option (Shell × Outcome × List Ev) :=
  match lookupCmd i.commands n with
  | some c =>
    let pr := ext.parse c cargs
    let cp := pr.1
    let i' := { i with commands := replaceCmd i.commands n (clearCommand cp) }
    let helpOn :=
      match cp.option "help" with
      | some h => h.toBool
      | none => false
    if helpOn then
      some (i', Outcome.ok, [Ev.printed (ext.describe cp)])
    else
      match pr.2 with
      | some e =>
        some (i', Outcome.parseErr e,
          [Ev.printed ("parse error: " ++ e), Ev.printed (ext.describe cp)])
      | none =>
        let hr := ext.call i cp
        match hr.1 with
        | some e => some (i', Outcome.ok, [Ev.handlerCalled n, Ev.printed e])
        | none =>
          match hr.2 with
          | some e =>
            some (i', Outcome.ok,
              [Ev.handlerCalled n, Ev.printed ("failure in execution: " ++ e)])
          | none => some (i', Outcome.ok, [Ev.handlerCalled n])
  | none =>
    match origArgs.get? 0 with
    | some a0 =>
      some (i, Outcome.unknown, [Ev.printed ("error: command " ++ a0 ++ " unknown")])
    | none => none

/-- `RunCommand` (icli.go lines 144-207): the ordered branch structure —
default command, quit/exit, `set`, `unset`, registered-command
dispatch. -/
def runCommand (ext : Ext) (i : Shell) (args : List String) :
    Option (Shell × Outcome × List Ev) :=
  if args.length < 1 ∨
      (i.defaultCommand = "list" ∧ args.length = 1 ∧
        (args.headD "" = "-h" ∨ args.headD "" = "--help")) then
    dispatchCmd ext i i.defaultCommand [] args
  else if args.length = 1 ∧ (args.headD "" = "quit" ∨ args.headD "" = "exit") then
    some (i, Outcome.quit, [])
  else if args.headD "" = "set" then
    some ((setCommand i args.tail).1, Outcome.ok, (setCommand i args.tail).2)
  else if args.headD "" = "unset" then
    (unsetCommand i args.tail).map (fun p => (p.1, Outcome.ok, p.2))
  else
    dispatchCmd ext i (args.headD "") args.tail args

/-!
## REPL loop body (`Start`, icli.go lines 229-254)
-/

/-- One iteration of the interactive loop for an accepted line: empty
lines are skipped, the line is tokenized and dispatched, only `ErrQuit`
breaks, and every other accepted line is appended to history.  The
returned Bool is `true` when the loop continues; `none` is a dispatch
panic aborting the process. -/
def loopStep (ext : Ext) (i : Shell) (hist : List String) (line : String) :
    Option (Shell × List String × Bool) :=
  if line = "" then some (i, hist, true)
  else
    match runCommand ext i (tokenize line) with
    | none => none
    | some (i', outcome, _) =>
      if outcome = Outcome.quit then some (i', hist, false)
      else some (i', hist ++ [line], true)

/-!
## History I/O (`NewICli` lines 57-85, end of `Start` lines 256-262)
-/

/-- Outcomes of the three history-file operations `NewICli` performs:
`os.Open`, fallback `os.Create`, and `liner.ReadHistory`. -/
structure HistIO where
  openOk : Bool
  createOk : Bool
  readOk : Bool
  deriving DecidableEq, Repr

/-- The history handling of `NewICli` (icli.go lines 68-80): failure to
open-or-create, or to read, makes construction fail with an error. -/
def newICli (io : HistIO) (fresh : Shell) : Except String Shell :=
  if io.openOk then
    if io.readOk then Except.ok fresh
    else Except.error "could not read history file"
  else if io.createOk then
    if io.readOk then Except.ok fresh
    else Except.error "could not read history file"
  else Except.error "could not open or create history file"

/-- The history write at the end of `Start` (icli.go lines 256-262):
`(warnings printed, error returned)`; a create failure is reported but
`Start` still returns `nil`. -/
def finishStart (createOk : Bool) : List Ev × Option String :=
  if createOk then ([], none)
  else ([Ev.printed "error writing history file"], none)

/-!
## Structured lines for the tokenizer theorem

A raw line built from whitespace-separated segments — plain words and
quoted phrases — lets the tokenizer's behaviour on balanced-quote input
be stated in general.
-/

/-- One segment of a raw line: a plain word, a single-quoted phrase or a
double-quoted phrase (the quote characters are part of the rendered
line, not of `w`). -/
inductive Seg where
  | plain (w : List Char)
  | squoted (w : List Char)
  | dquoted (w : List Char)
  deriving DecidableEq, Repr

/-- The characters a segment contributes to the raw line. -/
def Seg.render : Seg → List Char
  | .plain w => w
  | .squoted w => sq :: (w ++ [sq])
  | .dquoted w => dq :: (w ++ [dq])

/-- Raw line obtained by separating the segments with single spaces. -/
def renderLine : List Seg → List Char
  | [] => []
  | [s] => s.render
  | s :: s' :: ss => s.render ++ (' ' :: renderLine (s' :: ss))

/-- A character allowed in a plain word: not whitespace and not a quote
character. -/
def plainCharOk (c : Char) : Bool :=
  !goSpace c && c != sq && c != dq

/-- A character allowed inside a quoted phrase: any character except the
two quote characters and newline (whitespace is the point of
quoting). -/
def quotedCharOk (c : Char) : Bool :=
  c != sq && c != dq && c != '\n'

/-- Well-formedness of one segment: non-empty and made of the allowed
characters. -/
def Seg.wf : Seg → Bool
  | .plain w => !w.isEmpty && w.all plainCharOk
  | .squoted w => !w.isEmpty && w.all quotedCharOk
  | .dquoted w => !w.isEmpty && w.all quotedCharOk

/-- Is the segment single-quoted? -/
def Seg.isSQ : Seg → Bool
  | .squoted _ => true
  | _ => false

/-- Is the segment double-quoted? -/
def Seg.isDQ : Seg → Bool
  | .dquoted _ => true
  | _ => false

/-- A line on which the tokenizer is exact: well-formed segments, and at
most one quoted phrase of each quote kind (the greedy `.+` would fuse
two same-kind phrases into one token). -/
def lineWf (segs : List Seg) : Prop :=
  segs.all Seg.wf = true ∧
    segs.countP Seg.isSQ ≤ 1 ∧ segs.countP Seg.isDQ ≤ 1

instance : DecidablePred lineWf := fun _ =>
  inferInstanceAs (Decidable (_ ∧ _ ∧ _))

/-!
## Concrete fixtures used by witnesses and counterexamples
-/

/-- Trivial external collaborators: parsing fills nothing and succeeds,
handlers succeed silently. -/
def extId : Ext where
  parse := fun c _ => (c, none)
  call := fun _ _ => (none, none)
  describe := fun c => c.name

/-- External collaborators whose parser records a provided `--help`. -/
def extHelp : Ext where
  parse := fun c _ =>
    ({ c with options := [{ name := "help", values := ["true"] }] }, none)
  call := fun _ _ => (none, none)
  describe := fun c => "usage of " ++ c.name

/-- Empty shell. -/
def shell0 : Shell where
  commands := []
  defaultCommand := "list"
  defaultOptions := []
  optionList := []
  optionSet := []

/-- A command named `greet` with one declared option carrying stale
parsed values from a previous invocation. -/
def greetCmd : Command where
  name := "greet"
  options := [{ name := "name", values := ["Ann"] }]
  arguments := [{ name := "who", values := ["stale"] }]

/-- A shell with `greet` registered, its option registry rebuilt and one
global option set. -/
def shell1 : Shell :=
  updateOptionList
    { commands := [("greet", greetCmd)]
      defaultCommand := "list"
      defaultOptions := [{ name := "help", values := [] }]
      optionList := []
      optionSet := [("a", "1"), ("b", "2")] }

/-- The spec's example line as structured segments: two plain words and
one double-quoted phrase. -/
def exSegs : List Seg :=
  [Seg.plain "hello".data, Seg.plain "--name".data, Seg.dquoted "Jane Doe".data]

/-!
## Association-list lemmas
-/

theorem lookupStore_storeInsert_self (k v : String) (s : List (String × String)) :
    lookupStore (storeInsert k v s) k = some v := by
  induction s with
  | nil => simp [storeInsert, lookupStore]
  | cons p rest ih =>
    by_cases h : p.1 = k
    · simp [storeInsert, lookupStore, h]
    · simp only [storeInsert]
      rw [if_neg (by simpa using h)]
      simpa [lookupStore, h] using ih

theorem lookupStore_storeInsert_ne (k v k' : String) (s : List (String × String))
    (h : k' ≠ k) : lookupStore (storeInsert k v s) k' = lookupStore s k' := by
  induction s with
  | nil => simp [storeInsert, lookupStore, h, Ne.symm h]
  | cons p rest ih =>
    by_cases hk : p.1 = k
    · simp [storeInsert, lookupStore, hk, h, Ne.symm h]
    · simp only [storeInsert]
      rw [if_neg (by simpa using hk)]
      by_cases hk' : p.1 = k'
      · simp [lookupStore, hk']
      · simpa [lookupStore, hk'] using ih

theorem lookupCmd_replaceCmd (cmds : List (String × Command)) (n : String)
    (c c' : Command) (h : lookupCmd cmds n = some c) :
    lookupCmd (replaceCmd cmds n c') n = some c' := by
  induction cmds with
  | nil => simp [lookupCmd] at h
  | cons p rest ih =>
    by_cases hn : p.1 = n
    · simp [replaceCmd, lookupCmd, hn]
    · have hb : (p.1 == n) = false := by simpa using hn
      simp only [replaceCmd, List.map_cons, hb, Bool.false_eq_true, if_false]
      have h' : lookupCmd rest n = some c := by
        simpa [lookupCmd, List.find?_cons, hb] using h
      simpa [lookupCmd, List.find?_cons, hb, replaceCmd] using ih h'

theorem clearedB_clearCommand (c : Command) : clearedB (clearCommand c) = true := by
  simp [clearedB, clearCommand, List.all_map, Function.comp]

/-!
## Tokenizer lemmas
-/

theorem findAll_nil (fuel : Nat) : findAll fuel [] = [] := by
  cases fuel <;> rfl

theorem findAll_space (l : List Char) (fuel : Nat) :
    findAll (fuel + 1) (' ' :: l) = findAll fuel l := by
  simp [findAll, goSpace]

theorem takeWhile_append_all (p : Char → Bool) (w t : List Char)
    (hw : ∀ x ∈ w, p x = true)
    (ht : t = [] ∨ ∃ c t', t = c :: t' ∧ p c = false) :
    (w ++ t).takeWhile p = w ∧ (w ++ t).dropWhile p = t := by
  induction w with
  | nil =>
    rcases ht with rfl | ⟨c, t', rfl, hpc⟩
    · simp
    · simp [List.takeWhile, List.dropWhile, hpc]
  | cons a w' ih =>
    have hpa : p a = true := hw a (by simp)
    have ih' := ih (fun x hx => hw x (by simp [hx]))
    simp [List.takeWhile, List.dropWhile, hpa, ih'.1, ih'.2]

theorem lastQuote_of_not_mem (q : Char) (l : List Char)
    (h : ∀ x ∈ l, (x == q) = false) : lastQuote q l = none := by
  induction l with
  | nil => rfl
  | cons c rest ih =>
    have hc := h c (by simp)
    have ih' := ih (fun x hx => h x (by simp [hx]))
    by_cases hn : (c == '\n') = true
    · simp [lastQuote, hn]
    · simp [lastQuote, hn, ih', hc]

theorem lastQuote_append (q : Char) (w t : List Char)
    (hq : (q == '\n') = false)
    (hw : ∀ x ∈ w, (x == q) = false ∧ (x == '\n') = false)
    (ht : ∀ x ∈ t, (x == q) = false) :
    lastQuote q (w ++ q :: t) = some w.length := by
  induction w with
  | nil => simp [lastQuote, hq, lastQuote_of_not_mem q t ht]
  | cons c w' ih =>
    have hc := hw c (by simp)
    have ih' := ih (fun x hx => hw x (by simp [hx]))
    simp [lastQuote, hc.1, hc.2, ih']

theorem matchQuote_append (q : Char) (w t : List Char)
    (hq : (q == '\n') = false) (hne : w ≠ [])
    (hw : ∀ x ∈ w, (x == q) = false ∧ (x == '\n') = false)
    (ht : ∀ x ∈ t, (x == q) = false) :
    matchQuote q (w ++ q :: t) = some w.length := by
  have hlen : 1 ≤ w.length := List.length_pos.mpr hne
  simp [matchQuote, lastQuote_append q w t hq hw ht, hlen]

theorem take_drop_len_app (w : List Char) (x : Char) (t : List Char) :
    (w ++ x :: t).take (w.length + 1) = w ++ [x] ∧
      (w ++ x :: t).drop (w.length + 1) = t := by
  induction w with
  | nil => simp
  | cons c w' ih => simp [List.take_succ_cons, List.drop_succ_cons, ih.1, ih.2]

/-- Token step for a plain word: a maximal non-whitespace run is taken
whole when the remainder starts with a space or is empty. -/
theorem findAll_plain_step (c : Char) (w t : List Char) (fuel : Nat)
    (hc : plainCharOk c = true) (hw : ∀ x ∈ w, plainCharOk x = true)
    (ht : t = [] ∨ ∃ t', t = ' ' :: t') :
    findAll (fuel + 1) (c :: (w ++ t)) = (c :: w) :: findAll fuel t := by
  simp only [plainCharOk, Bool.and_eq_true, Bool.not_eq_true', bne_iff_ne] at hc
  obtain ⟨⟨hsp, hne1⟩, hne2⟩ := hc
  have hb1 : (c == sq) = false := beq_eq_false_iff_ne.mpr hne1
  have hb2 : (c == dq) = false := beq_eq_false_iff_ne.mpr hne2
  have hTW := takeWhile_append_all (fun d => !goSpace d) w t
    (fun x hx => by
      have hx' := hw x hx
      simp only [plainCharOk, Bool.and_eq_true] at hx'
      exact hx'.1.1)
    (by
      rcases ht with rfl | ⟨t', rfl⟩
      · exact Or.inl rfl
      · exact Or.inr ⟨' ', t', rfl, by simp [goSpace]⟩)
  simp only [findAll, hsp, hb1, hb2, Bool.false_eq_true, if_false, hTW.1, hTW.2]

/-- Token step for a quoted phrase: when the remainder contains no
further quote of the same kind, the greedy match ends exactly at the
phrase's closing quote and the quote characters stay in the token. -/
theorem findAll_quoted_step (q : Char) (hq : q = sq ∨ q = dq)
    (w t : List Char) (fuel : Nat)
    (hwne : w ≠ []) (hw : ∀ x ∈ w, quotedCharOk x = true)
    (ht : ∀ x ∈ t, (x == q) = false) :
    findAll (fuel + 1) (q :: (w ++ q :: t)) =
      (q :: (w ++ [q])) :: findAll fuel t := by
  have hwq : ∀ x ∈ w, (x == q) = false ∧ (x == '\n') = false := by
    intro x hx
    have hx' := hw x hx
    simp only [quotedCharOk, Bool.and_eq_true, bne_iff_ne] at hx'
    rcases hq with rfl | rfl
    · exact ⟨beq_eq_false_iff_ne.mpr hx'.1.1, beq_eq_false_iff_ne.mpr hx'.2⟩
    · exact ⟨beq_eq_false_iff_ne.mpr hx'.1.2, beq_eq_false_iff_ne.mpr hx'.2⟩
  have hqn : (q == '\n') = false := by rcases hq with rfl | rfl <;> decide
  have hmatch := matchQuote_append q w t hqn hwne hwq ht
  have hTD := take_drop_len_app w q t
  have hgs : goSpace q = false := by rcases hq with rfl | rfl <;> decide
  rcases hq with rfl | rfl
  · simp only [findAll, hgs, Bool.false_eq_true, if_false, beq_self_eq_true,
      if_true, hmatch, hTD.1, hTD.2]
  · have hds : (dq == sq) = false := by decide
    simp only [findAll, hgs, Bool.false_eq_true, if_false, hds, beq_self_eq_true,
      if_true, hmatch, hTD.1, hTD.2]

theorem renderLine_no_char (q : Char) (hsp : (' ' == q) = false)
    (segs : List Seg)
    (h : ∀ s ∈ segs, ∀ x ∈ Seg.render s, (x == q) = false) :
    ∀ x ∈ renderLine segs, (x == q) = false := by
  induction segs with
  | nil => intro x hx; simp [renderLine] at hx
  | cons s rest ih =>
    intro x hx
    cases rest with
    | nil =>
      simp only [renderLine] at hx
      exact h s (by simp) x hx
    | cons r rs =>
      simp only [renderLine] at hx
      rcases List.mem_append.mp hx with hx | hx
      · exact h s (by simp) x hx
      · rcases List.mem_cons.mp hx with rfl | hx
        · exact hsp
        · exact ih (fun s' hs' => h s' (by simp [hs'])) x hx

theorem seg_render_no_sq (s : Seg) (hwf : Seg.wf s = true)
    (hnot : Seg.isSQ s = false) : ∀ x ∈ Seg.render s, (x == sq) = false := by
  cases s with
  | plain w =>
    intro x hx
    simp only [Seg.render] at hx
    simp only [Seg.wf, Bool.and_eq_true] at hwf
    have hx' := List.all_eq_true.mp hwf.2 x hx
    simp only [plainCharOk, Bool.and_eq_true, bne_iff_ne] at hx'
    exact beq_eq_false_iff_ne.mpr hx'.1.2
  | squoted w => simp [Seg.isSQ] at hnot
  | dquoted w =>
    intro x hx
    simp only [Seg.render] at hx
    simp only [Seg.wf, Bool.and_eq_true] at hwf
    rcases List.mem_cons.mp hx with rfl | hx
    · decide
    · rcases List.mem_append.mp hx with hx | hx
      · have hx' := List.all_eq_true.mp hwf.2 x hx
        simp only [quotedCharOk, Bool.and_eq_true, bne_iff_ne] at hx'
        exact beq_eq_false_iff_ne.mpr hx'.1.1
      · rcases List.mem_singleton.mp hx with rfl
        decide

theorem seg_render_no_dq (s : Seg) (hwf : Seg.wf s = true)
    (hnot : Seg.isDQ s = false) : ∀ x ∈ Seg.render s, (x == dq) = false := by
  cases s with
  | plain w =>
    intro x hx
    simp only [Seg.render] at hx
    simp only [Seg.wf, Bool.and_eq_true] at hwf
    have hx' := List.all_eq_true.mp hwf.2 x hx
    simp only [plainCharOk, Bool.and_eq_true, bne_iff_ne] at hx'
    exact beq_eq_false_iff_ne.mpr hx'.2
  | dquoted w => simp [Seg.isDQ] at hnot
  | squoted w =>
    intro x hx
    simp only [Seg.render] at hx
    simp only [Seg.wf, Bool.and_eq_true] at hwf
    rcases List.mem_cons.mp hx with rfl | hx
    · decide
    · rcases List.mem_append.mp hx with hx | hx
      · have hx' := List.all_eq_true.mp hwf.2 x hx
        simp only [quotedCharOk, Bool.and_eq_true, bne_iff_ne] at hx'
        exact beq_eq_false_iff_ne.mpr hx'.1.2
      · rcases List.mem_singleton.mp hx with rfl
        decide

/-- On a line of well-formed whitespace-separated segments with at most
one quoted phrase of each quote kind, the tokenizer returns exactly the
segments, quote characters retained. -/
theorem findAll_renderLine (segs : List Seg) :
    ∀ fuel, segs.all Seg.wf = true →
      segs.countP Seg.isSQ ≤ 1 → segs.countP Seg.isDQ ≤ 1 →
      (renderLine segs).length ≤ fuel →
      findAll fuel (renderLine segs) = segs.map Seg.render := by
  induction segs with
  | nil =>
    intro fuel _ _ _ _
    simp [renderLine, findAll_nil]
  | cons s rest ih =>
    intro fuel hwf hsq hdq hfuel
    simp only [List.all_cons, Bool.and_eq_true] at hwf
    obtain ⟨hs, hrest⟩ := hwf
    have hsq' : rest.countP Seg.isSQ ≤ 1 := by
      rw [List.countP_cons] at hsq; omega
    have hdq' : rest.countP Seg.isDQ ≤ 1 := by
      rw [List.countP_cons] at hdq; omega
    cases s with
    | plain w =>
      simp only [Seg.wf, Bool.and_eq_true] at hs
      obtain ⟨hne, hall⟩ := hs
      cases w with
      | nil => simp at hne
      | cons c w' =>
        have hc : plainCharOk c = true := List.all_eq_true.mp hall c (by simp)
        have hw' : ∀ x ∈ w', plainCharOk x = true := fun x hx =>
          List.all_eq_true.mp hall x (by simp [hx])
        cases rest with
        | nil =>
          have hr : renderLine [Seg.plain (c :: w')] = c :: (w' ++ []) := by
            simp [renderLine, Seg.render]
          rw [hr] at hfuel ⊢
          cases fuel with
          | zero => simp at hfuel
          | succ f =>
            rw [findAll_plain_step c w' [] f hc hw' (Or.inl rfl), findAll_nil]
            simp [Seg.render]
        | cons r rs =>
          have hr : renderLine (Seg.plain (c :: w') :: r :: rs) =
              c :: (w' ++ (' ' :: renderLine (r :: rs))) := by
            simp [renderLine, Seg.render]
          rw [hr] at hfuel ⊢
          cases fuel with
          | zero => simp at hfuel
          | succ f =>
            rw [findAll_plain_step c w' (' ' :: renderLine (r :: rs)) f hc hw'
              (Or.inr ⟨_, rfl⟩)]
            cases f with
            | zero =>
              simp only [List.length_cons, List.length_append] at hfuel
              omega
            | succ f' =>
              rw [findAll_space]
              have hlen : (renderLine (r :: rs)).length ≤ f' := by
                simp only [List.length_cons, List.length_append] at hfuel
                omega
              rw [ih f' hrest hsq' hdq' hlen]
              simp [Seg.render]
    | squoted w =>
      simp only [Seg.wf, Bool.and_eq_true] at hs
      obtain ⟨hne, hall⟩ := hs
      have hwne : w ≠ [] := by
        intro h
        subst h
        simp at hne
      have hallq : ∀ x ∈ w, quotedCharOk x = true := List.all_eq_true.mp hall
      have h0 : rest.countP Seg.isSQ = 0 := by
        rw [List.countP_cons] at hsq
        simp only [Seg.isSQ, if_true] at hsq
        omega
      have hnone : ∀ s' ∈ rest, Seg.isSQ s' = false := by
        intro s' hs'
        have hls' := List.countP_eq_zero.mp h0 s' hs'
        simpa using hls'
      cases rest with
      | nil =>
        have hr : renderLine [Seg.squoted w] = sq :: (w ++ sq :: []) := by
          simp [renderLine, Seg.render]
        rw [hr] at hfuel ⊢
        cases fuel with
        | zero => simp at hfuel
        | succ f =>
          rw [findAll_quoted_step sq (Or.inl rfl) w [] f hwne hallq
            (by intro x hx; simp at hx), findAll_nil]
          simp [Seg.render]
      | cons r rs =>
        have hts : ∀ x ∈ (' ' :: renderLine (r :: rs)), (x == sq) = false := by
          intro x hx
          rcases List.mem_cons.mp hx with rfl | hx
          · decide
          · exact renderLine_no_char sq (by decide) (r :: rs)
              (fun s' hs' => seg_render_no_sq s'
                (List.all_eq_true.mp hrest s' hs') (hnone s' hs')) x hx
        have hr : renderLine (Seg.squoted w :: r :: rs) =
            sq :: (w ++ sq :: (' ' :: renderLine (r :: rs))) := by
          simp [renderLine, Seg.render]
        rw [hr] at hfuel ⊢
        cases fuel with
        | zero => simp at hfuel
        | succ f =>
          rw [findAll_quoted_step sq (Or.inl rfl) w (' ' :: renderLine (r :: rs))
            f hwne hallq hts]
          cases f with
          | zero =>
            simp only [List.length_cons, List.length_append] at hfuel
            omega
          | succ f' =>
            rw [findAll_space]
            have hlen : (renderLine (r :: rs)).length ≤ f' := by
              simp only [List.length_cons, List.length_append] at hfuel
              omega
            rw [ih f' hrest hsq' hdq' hlen]
            simp [Seg.render]
    | dquoted w =>
      simp only [Seg.wf, Bool.and_eq_true] at hs
      obtain ⟨hne, hall⟩ := hs
      have hwne : w ≠ [] := by
        intro h
        subst h
        simp at hne
      have hallq : ∀ x ∈ w, quotedCharOk x = true := List.all_eq_true.mp hall
      have h0 : rest.countP Seg.isDQ = 0 := by
        rw [List.countP_cons] at hdq
        simp only [Seg.isDQ, if_true] at hdq
        omega
      have hnone : ∀ s' ∈ rest, Seg.isDQ s' = false := by
        intro s' hs'
        have hls' := List.countP_eq_zero.mp h0 s' hs'
        simpa using hls'
      cases rest with
      | nil =>
        have hr : renderLine [Seg.dquoted w] = dq :: (w ++ dq :: []) := by
          simp [renderLine, Seg.render]
        rw [hr] at hfuel ⊢
        cases fuel with
        | zero => simp at hfuel
        | succ f =>
          rw [findAll_quoted_step dq (Or.inr rfl) w [] f hwne hallq
            (by intro x hx; simp at hx), findAll_nil]
          simp [Seg.render]
      | cons r rs =>
        have hts : ∀ x ∈ (' ' :: renderLine (r :: rs)), (x == dq) = false := by
          intro x hx
          rcases List.mem_cons.mp hx with rfl | hx
          · decide
          · exact renderLine_no_char dq (by decide) (r :: rs)
              (fun s' hs' => seg_render_no_dq s'
                (List.all_eq_true.mp hrest s' hs') (hnone s' hs')) x hx
        have hr : renderLine (Seg.dquoted w :: r :: rs) =
            dq :: (w ++ dq :: (' ' :: renderLine (r :: rs))) := by
          simp [renderLine, Seg.render]
        rw [hr] at hfuel ⊢
        cases fuel with
        | zero => simp at hfuel
        | succ f =>
          rw [findAll_quoted_step dq (Or.inr rfl) w (' ' :: renderLine (r :: rs))
            f hwne hallq hts]
          cases f with
          | zero =>
            simp only [List.length_cons, List.length_append] at hfuel
            omega
          | succ f' =>
            rw [findAll_space]
            have hlen : (renderLine (r :: rs)).length ≤ f' := by
              simp only [List.length_cons, List.length_append] at hfuel
              omega
            rw [ih f' hrest hsq' hdq' hlen]
            simp [Seg.render]

/-!
## Claim theorems
-/

/-- C2 counterexample: the quote characters are not stripped.  The
spec's own example line tokenizes to `hello`, `--name`, `"Jane Doe"`
with the double quotes still part of the third token, not to the
claimed quote-free `Jane Doe`. -/
theorem c2_counterexample :
    tokenize "hello --name \"Jane Doe\"" = ["hello", "--name", "\"Jane Doe\""] ∧
      tokenize "hello --name \"Jane Doe\"" ≠ ["hello", "--name", "Jane Doe"] := by
  decide

/-- C2 amended: for every raw line of whitespace-separated well-formed
segments with at most one single-quoted and at most one double-quoted
phrase, the tokenizer returns exactly those segments in order, with the
quote characters retained in the quoted tokens (with two phrases of the
same quote kind the greedy match would fuse them, and quote stripping
never happens). -/
theorem c2_amended_tokenizer (segs : List Seg) (h : lineWf segs) :
    tokenizeChars (renderLine segs) = segs.map Seg.render :=
  findAll_renderLine segs (renderLine segs).length h.1 h.2.1 h.2.2 le_rfl

/-- C2 witness: the amended statement evaluated on the spec's example
line `hello --name "Jane Doe"`. -/
theorem c2_amended_witness :
    lineWf exSegs ∧ tokenizeChars (renderLine exSegs) = exSegs.map Seg.render :=
  ⟨by decide, c2_amended_tokenizer exSegs (by decide)⟩

/-- C1: for every shell state, command and non-empty option name,
`GetOption` resolves exactly by the 3-tier precedence the spec states —
the value provided on this command line, else the Global Option Store
entry, else the empty string (never an error). -/
theorem c1_getOption_precedence (i : Shell) (cmd : Command) (n : String)
    (h : n ≠ "") : getOption (some i) (some cmd) n = resolveSpec i cmd n := by
  have hb : (n == "") = false := by simpa using h
  simp only [getOption, resolveSpec, hb, Bool.false_eq_true, if_false]
  cases hopt : cmd.option n with
  | none => cases lookupStore i.optionSet n <;> simp
  | some o =>
    cases hp : o.provided with
    | true => simp [hp]
    | false => cases lookupStore i.optionSet n <;> simp [hp]

/-- C1 witness: with `region` set globally to `us-east`, a command that
declares `region` unprovided resolves it to `us-east` (tier 2); if the
command line provided `eu-west`, that wins (tier 1). -/
theorem c1_witness :
    (("region" : String) ≠ "" ∧
      getOption (some { shell0 with optionSet := [("region", "us-east")] })
        (some { name := "go", options := [{ name := "region", values := [] }],
                arguments := [] }) "region" =
        resolveSpec { shell0 with optionSet := [("region", "us-east")] }
          { name := "go", options := [{ name := "region", values := [] }],
            arguments := [] } "region") ∧
    getOption (some { shell0 with optionSet := [("region", "us-east")] })
      (some { name := "go", options := [{ name := "region", values := ["eu-west"] }],
              arguments := [] }) "region" =
      resolveSpec { shell0 with optionSet := [("region", "us-east")] }
        { name := "go", options := [{ name := "region", values := ["eu-west"] }],
          arguments := [] } "region" :=
  ⟨⟨by decide,
    c1_getOption_precedence { shell0 with optionSet := [("region", "us-east")] }
      { name := "go", options := [{ name := "region", values := [] }],
        arguments := [] } "region" (by decide)⟩,
   c1_getOption_precedence { shell0 with optionSet := [("region", "us-east")] }
     { name := "go", options := [{ name := "region", values := ["eu-west"] }],
       arguments := [] } "region" (by decide)⟩

/-- C10: `GetOption` is total at the public interface — a nil receiver,
a nil command, or an empty option name yields the empty string. -/
theorem c10_getOption_total :
    (∀ cmd n, getOption none cmd n = "") ∧
      (∀ i n, getOption (some i) none n = "") ∧
      (∀ i cmd, getOption (some i) (some cmd) "" = "") :=
  ⟨fun _ _ => rfl, fun _ _ => rfl, fun _ _ => rfl⟩

/-- C4: with the Option Registry freshly rebuilt, `SetGlobalOption` on a
name outside the registry (the union of all commands' option names plus
the default options) fails with an unknown-option error and leaves the
whole shell — in particular the Global Option Store — unchanged; on a
registered name it inserts or overwrites that entry, touches no other
entry, and returns no error. -/
theorem c4_setGlobalOption (i0 : Shell) (key value k : String) :
    (key ∉ registryNames i0 →
      setGlobalOption (updateOptionList i0) key value =
        (updateOptionList i0, some ("unknown option " ++ key))) ∧
    (key ∈ registryNames i0 →
      (setGlobalOption (updateOptionList i0) key value).2 = none ∧
      lookupStore (setGlobalOption (updateOptionList i0) key value).1.optionSet key =
        some value ∧
      (k ≠ key →
        lookupStore (setGlobalOption (updateOptionList i0) key value).1.optionSet k =
          lookupStore i0.optionSet k)) := by
  constructor
  · intro hout
    simp [setGlobalOption, updateOptionList, hout]
  · intro hin
    refine ⟨?_, ?_, ?_⟩
    · simp [setGlobalOption, updateOptionList, hin]
    · simp [setGlobalOption, updateOptionList, hin, lookupStore_storeInsert_self]
    · intro hk
      simp [setGlobalOption, updateOptionList, hin,
        lookupStore_storeInsert_ne _ _ _ _ hk]

/-- C4 witness: in `shell1` the registered name `name` is set (and only
its entry changes), while the unregistered name `nope` is rejected with
the store untouched. -/
theorem c4_witness :
    (setGlobalOption (updateOptionList shell1) "name" "Bo").2 = none ∧
    lookupStore (setGlobalOption (updateOptionList shell1) "name" "Bo").1.optionSet
      "name" = some "Bo" ∧
    lookupStore (setGlobalOption (updateOptionList shell1) "name" "Bo").1.optionSet
      "a" = lookupStore shell1.optionSet "a" ∧
    setGlobalOption (updateOptionList shell1) "nope" "x" =
      (updateOptionList shell1, some ("unknown option " ++ "nope")) := by
  refine ⟨?_, ?_, ?_, ?_⟩
  · exact ((c4_setGlobalOption shell1 "name" "Bo" "a").2 (by decide)).1
  · exact ((c4_setGlobalOption shell1 "name" "Bo" "a").2 (by decide)).2.1
  · exact ((c4_setGlobalOption shell1 "name" "Bo" "a").2 (by decide)).2.2 (by decide)
  · exact (c4_setGlobalOption shell1 "nope" "x" "a").1 (by decide)

/-- C5: the code crashes where the claim promises safety.  `unset name`
reaches `unsetCommand` with the single argument list `[name]`; the
length check prints the usage message but does not return, and the
subsequent `args[1]` panics (modelled `none`).  A bare `unset` panics
the same way, while `unset a b` silently removes the second name `b`
after printing no usage error. -/
theorem c5_unsetCommand_crash :
    unsetCommand shell1 ["region"] = none ∧
    unsetCommand shell1 [] = none ∧
    unsetCommand shell1 ["a", "b"] =
      some ({ shell1 with optionSet := [("a", "1")] }, []) := by
  refine ⟨rfl, rfl, ?_⟩
  decide

/-- C3: the code crashes where the claim promises the loop continues.
Dispatching the accepted line `unset region` panics inside
`unsetCommand` (modelled `none`), aborting the REPL without the quit
condition; the companion conjuncts show the intended terminations:
`quit` and `exit` break the loop cleanly, and an unknown single word is
reported while the loop continues. -/
theorem c3_loop_crash_on_unset :
    loopStep extId shell0 [] "unset region" = none ∧
    loopStep extId shell0 [] "quit" = some (shell0, [], false) ∧
    loopStep extId shell0 [] "exit" = some (shell0, [], false) ∧
    loopStep extId shell0 [] "frobnicate" =
      some (shell0, ["frobnicate"], true) := by
  refine ⟨rfl, rfl, rfl, rfl⟩

/-- C6 counterexample: construction does fail on history I/O — when the
history file can neither be opened nor created, and likewise when it
cannot be read, `NewICli` returns an error instead of a usable shell. -/
theorem c6_counterexample :
    newICli { openOk := false, createOk := false, readOk := true } shell0 =
      Except.error "could not open or create history file" ∧
    newICli { openOk := true, createOk := false, readOk := false } shell0 =
      Except.error "could not read history file" :=
  ⟨rfl, rfl⟩

/-- C6 amended: a history write failure at shutdown is reported and
non-fatal (`Start` still returns nil), but construction succeeds only
when the history file can be opened or created and read — otherwise
`NewICli` fails with an error. -/
theorem c6_amended :
    (∀ createOk, (finishStart createOk).2 = none) ∧
      (∀ io : HistIO, ∀ fresh : Shell,
        (newICli io fresh).toBool = ((io.openOk || io.createOk) && io.readOk)) := by
  constructor
  · intro createOk
    cases createOk <;> rfl
  · intro io fresh
    obtain ⟨o, c, r⟩ := io
    cases o <;> cases c <;> cases r <;> rfl

/-- Shared step for C7/C8: a command dispatch `name :: rest` that avoids
the default-command, quit and set/unset branches lands in the
registered-command branch of `RunCommand`. -/
theorem runCommand_dispatch (ext : Ext) (i : Shell) (n : String)
    (rest : List String)
    (hset : n ≠ "set") (hunset : n ≠ "unset")
    (hquit : rest = [] → n ≠ "quit" ∧ n ≠ "exit")
    (hhelp : i.defaultCommand = "list" ∧ rest = [] → n ≠ "-h" ∧ n ≠ "--help") :
    runCommand ext i (n :: rest) = dispatchCmd ext i n rest (n :: rest) := by
  have h1 : ¬((n :: rest).length < 1 ∨
      (i.defaultCommand = "list" ∧ (n :: rest).length = 1 ∧
        (n = "-h" ∨ n = "--help"))) := by
    rintro (habs | ⟨hd, hl, hh⟩)
    · simp at habs
    · have hr : rest = [] := by
        have : rest.length = 0 := by simpa using hl
        simpa using this
      obtain ⟨ha, hb⟩ := hhelp ⟨hd, hr⟩
      rcases hh with hh | hh
      · exact ha hh
      · exact hb hh
  have h2 : ¬((n :: rest).length = 1 ∧ (n = "quit" ∨ n = "exit")) := by
    rintro ⟨hl, hh⟩
    have hr : rest = [] := by
      have : rest.length = 0 := by simpa using hl
      simpa using this
    obtain ⟨ha, hb⟩ := hquit hr
    rcases hh with hh | hh
    · exact ha hh
    · exact hb hh
  simp only [runCommand, List.headD_cons, List.tail_cons]
  rw [if_neg h1, if_neg h2, if_neg hset, if_neg hunset]

/-- C7: after any dispatch of a registered command — whatever the
external parser, help flag, parse error or handler result did — the
command object stored in the registry carries no parsed option or
argument values, so nothing can leak into the next invocation. -/
theorem c7_dispatch_clears (ext : Ext) (i : Shell) (n : String)
    (rest : List String) (c : Command)
    (hfound : lookupCmd i.commands n = some c)
    (hset : n ≠ "set") (hunset : n ≠ "unset")
    (hquit : rest = [] → n ≠ "quit" ∧ n ≠ "exit")
    (hhelp : i.defaultCommand = "list" ∧ rest = [] → n ≠ "-h" ∧ n ≠ "--help") :
    ∃ i' out evs, runCommand ext i (n :: rest) = some (i', out, evs) ∧
      ∀ c', lookupCmd i'.commands n = some c' → clearedB c' = true := by
  rw [runCommand_dispatch ext i n rest hset hunset hquit hhelp]
  have hstep : ∀ c',
      lookupCmd (replaceCmd i.commands n (clearCommand (ext.parse c rest).1)) n =
        some c' → clearedB c' = true := by
    intro c' hc'
    rw [lookupCmd_replaceCmd i.commands n c _ hfound] at hc'
    exact (Option.some.inj hc') ▸ clearedB_clearCommand _
  simp only [dispatchCmd, hfound]
  split
  · exact ⟨_, _, _, rfl, hstep⟩
  · cases hperr : (ext.parse c rest).2 with
    | some e =>
      simp only [hperr]
      exact ⟨_, _, _, rfl, hstep⟩
    | none =>
      simp only [hperr]
      cases hcall : (ext.call i (ext.parse c rest).1).1 with
      | some e =>
        simp only [hcall]
        exact ⟨_, _, _, rfl, hstep⟩
      | none =>
        simp only [hcall]
        cases hres : (ext.call i (ext.parse c rest).1).2 with
        | some e =>
          simp only [hres]
          exact ⟨_, _, _, rfl, hstep⟩
        | none =>
          simp only [hres]
          exact ⟨_, _, _, rfl, hstep⟩

/-- C7 witness: dispatching `greet x` on a shell whose `greet` object
still holds stale values from a prior call leaves the stored object
fully cleared. -/
theorem c7_witness :
    ∃ i' out evs, runCommand extId shell1 ["greet", "x"] = some (i', out, evs) ∧
      ∀ c', lookupCmd i'.commands "greet" = some c' → clearedB c' = true :=
  c7_dispatch_clears extId shell1 "greet" ["x"] greetCmd rfl
    (by decide) (by decide) (by intro h; cases h) (by intro h; cases h.2)

/-- C8: when the parsed command has its `help` option true, the
dispatcher prints the command description and returns success (`nil`)
without invoking the handler — the event list contains exactly the
usage print and no handler call. -/
theorem c8_help_shortcircuits (ext : Ext) (i : Shell) (n : String)
    (rest : List String) (c : Command) (h : ClifOpt)
    (hfound : lookupCmd i.commands n = some c)
    (hset : n ≠ "set") (hunset : n ≠ "unset")
    (hquit : rest = [] → n ≠ "quit" ∧ n ≠ "exit")
    (hhelp : i.defaultCommand = "list" ∧ rest = [] → n ≠ "-h" ∧ n ≠ "--help")
    (hopt : ((ext.parse c rest).1).option "help" = some h)
    (htrue : h.toBool = true) :
    runCommand ext i (n :: rest) =
      some ({ i with commands :=
                replaceCmd i.commands n (clearCommand (ext.parse c rest).1) },
            Outcome.ok, [Ev.printed (ext.describe (ext.parse c rest).1)]) := by
  rw [runCommand_dispatch ext i n rest hset hunset hquit hhelp]
  simp only [dispatchCmd, hfound, hopt, htrue, if_true]

/-- C8 witness: with a parser that marks `--help` provided-and-true,
dispatching `greet --help` prints the usage text, succeeds, and never
calls the handler. -/
theorem c8_witness :
    runCommand extHelp shell1 ["greet", "--help"] =
      some ({ shell1 with commands := replaceCmd shell1.commands "greet" (clearCommand (extHelp.parse greetCmd ["--help"]).1) },
            Outcome.ok,
            [Ev.printed (extHelp.describe (extHelp.parse greetCmd ["--help"]).1)]) :=
  c8_help_shortcircuits extHelp shell1 "greet" ["--help"] greetCmd
    (ClifOpt.mk "help" ["true"]) rfl (by decide) (by decide)
    (by intro h; cases h) (by intro h; cases h.2) rfl rfl

/-- C9: in the interactive loop an empty line is skipped without a
history append; a non-empty line whose dispatch returns the quit
condition breaks the loop without being appended; and every other
non-empty line whose dispatch returns — successful or failed — is
appended to the in-memory history and the loop continues. -/
theorem c9_history_append (ext : Ext) (i : Shell) (hist : List String)
    (line : String) (i' : Shell) (out : Outcome) (evs : List Ev) :
    (line = "" → loopStep ext i hist line = some (i, hist, true)) ∧
    (line ≠ "" → runCommand ext i (tokenize line) = some (i', out, evs) →
      ((out = Outcome.quit → loopStep ext i hist line = some (i', hist, false)) ∧
       (out ≠ Outcome.quit →
         loopStep ext i hist line = some (i', hist ++ [line], true)))) := by
  constructor
  · intro he
    simp [loopStep, he]
  · intro hne hrun
    constructor
    · intro hq
      simp [loopStep, hne, hrun, hq]
    · intro hq
      simp [loopStep, hne, hrun, hq]

/-- C9 witness: the empty line, the `quit` line and a failing unknown
line `frobnicate` behave as stated on the empty shell. -/
theorem c9_witness :
    loopStep extId shell0 ["old"] "" = some (shell0, ["old"], true) ∧
    loopStep extId shell0 ["old"] "quit" = some (shell0, ["old"], false) ∧
    loopStep extId shell0 ["old"] "frobnicate" =
      some (shell0, ["old", "frobnicate"], true) := by
  refine ⟨?_, ?_, ?_⟩
  · exact (c9_history_append extId shell0 ["old"] "" shell0 Outcome.ok []).1 rfl
  · exact ((c9_history_append extId shell0 ["old"] "quit" shell0 Outcome.quit []).2
      (by decide) (by decide)).1 rfl
  · exact ((c9_history_append extId shell0 ["old"] "frobnicate" shell0
      Outcome.unknown [Ev.printed "error: command frobnicate unknown"]).2
      (by decide) (by decide)).2 (by decide)

end ICli
